import Mathlib

/-!
# A verification model of the lifo memory pool

This file gives a shallow embedding of the lifo crate: a heap-less,
fixed-block memory pool whose free list is a Treiber stack
(src/lib.rs), together with the type-state handle (lib.rs, Box) and
the singleton wrapper's drop behaviour (src/singleton.rs).

Addresses of nodes are modelled as natural numbers, with 0 playing the
role of the null pointer.  Memory is a total map from addresses to
nodes; a node carries its value slot (an Option, none meaning that no
live value is stored) and its next link.  Operations are translated
from the Rust source: pop and push are the CAS loops of Pool::pop and
Pool::push in their uncontended one-iteration semantics; the
interleaved, preemptible semantics of these loops (used for the
concurrency claim) is modelled separately as an explicit machine with
an LL/SC exclusivity monitor, following the arch backend
(ldrex/strex/clrex) and the Cortex-M guarantee that taking an
exception between LDREX and STREX makes the STREX fail.
-/

namespace Lifo

/-- One storage cell of the pool (lib.rs, lines 499-503, the two-field
layout): a value slot and a next link.  The value slot is an Option:
none models a slot that holds no live value. -/
structure Node (T : Type) where
  data : Option T
  next : Nat
deriving Repr, DecidableEq

/-- The pool state (lib.rs, Pool): the Treiber-stack head plus the
contents of memory.  Address 0 is the null pointer. -/
structure PoolState (T : Type) where
  head : Nat
  mem : Nat → Node T

/-- Pointwise update of the next link of the node at address a. -/
def writeNext {T : Type} (mem : Nat → Node T) (a n : Nat) : Nat → Node T :=
  fun x => if x = a then { mem x with next := n } else mem x

/-- Pointwise update of the value slot of the node at address a. -/
def writeData {T : Type} (mem : Nat → Node T) (a : Nat) (v : Option T) : Nat → Node T :=
  fun x => if x = a then { mem x with data := v } else mem x

/-- Pool::new (lib.rs, lines 311-322): head is the null pointer.  The
ambient memory contents are a parameter (the pool owns no memory until
grow is called). -/
def PoolState.new (T : Type) (mem0 : Nat → Node T) : PoolState T :=
  { head := 0, mem := mem0 }

/-- Pool::pop (lib.rs, lines 403-427), uncontended semantics: the CAS
loop succeeds on its first iteration.  If the head is null the stack
is observed empty and the result is none; otherwise the head node is
returned and the head moves to its next link. -/
def pop {T : Type} (s : PoolState T) : Option (Nat × PoolState T) :=
  if s.head = 0 then none
  else some (s.head, { s with head := (s.mem s.head).next })

/-- Pool::push (lib.rs, lines 457-476), uncontended semantics: the new
node's next link is set to the observed head and the head is swapped
to the new node. -/
def push {T : Type} (s : PoolState T) (n : Nat) : PoolState T :=
  { head := n, mem := writeNext s.mem n s.head }

/-- The type-state tag of a handle (lib.rs, lines 546-549).  In the
source this is a type parameter dispatched on via TypeId in free; here
it is a tag carried by the handle. -/
inductive HandleState where
  | Uninit : HandleState
  | Init : HandleState
deriving Repr, DecidableEq

/-- A memory-block handle (lib.rs, lines 525-529, Box): the address of
its node plus the type-state tag. -/
structure Box (T : Type) where
  node : Nat
  state : HandleState
deriving Repr, DecidableEq

/-- Pool::alloc (lib.rs, lines 329-338): pop a node and wrap it in an
Uninit handle. -/
def alloc {T : Type} (s : PoolState T) : Option (Box T × PoolState T) :=
  match pop s with
  | some (n, s1) => some ({ node := n, state := HandleState.Uninit }, s1)
  | none => none

/-- Pool::free (lib.rs, lines 345-356): if the handle's tag is Init,
drop_in_place runs T's destructor on the value slot (counted by the
second component of the result); in both cases the node is pushed back
onto the free stack. -/
def free {T : Type} (s : PoolState T) (b : Box T) : PoolState T × Nat :=
  match b.state with
  | HandleState.Init => (push s b.node, 1)
  | HandleState.Uninit => (push s b.node, 0)

/-- Box::init (lib.rs, lines 531-543): write the value into the node's
value slot and return an Init handle on the same node. -/
def Box.initBox {T : Type} (s : PoolState T) (b : Box T) (v : T) :
    PoolState T × Box T :=
  ({ s with mem := writeData s.mem b.node (some v) },
   { node := b.node, state := HandleState.Init })

/-- Deref for Box<T, Init> (lib.rs, lines 575-581): read the node's
value slot. -/
def Box.deref {T : Type} (s : PoolState T) (b : Box T) : Option T :=
  (s.mem b.node).data

/-- Dropping the generic lib.rs Box: the source declares no Drop
implementation for it (dropping only discards the PhantomData and the
node pointer), so the pool state is untouched and no destructor of T
runs.  The destructors test (tests.rs, lines 62-66) documents this:
dropping an Init Box leaks the block. -/
def Box.discard {T : Type} (s : PoolState T) (_b : Box T) : PoolState T × Nat :=
  (s, 0)

/-- Drop for singleton::Box (singleton.rs, lines 132-146): if the tag
is Init, drop_in_place runs the destructor; in either case the node is
pushed back onto the pool's free stack. -/
def singletonDrop {T : Type} (s : PoolState T) (b : Box T) : PoolState T × Nat :=
  match b.state with
  | HandleState.Init => (push s b.node, 1)
  | HandleState.Uninit => (push s b.node, 0)

/-- The layout data of Node<T> that Pool::grow consumes
(mem::size_of and mem::align_of, lib.rs lines 365-366).  Both are
positive for every real Rust type setup here (a Node always contains a
pointer). -/
structure Layout where
  size : Nat
  align : Nat
  size_pos : 0 < size
  align_pos : 0 < align

/-- The loop of Pool::grow (lib.rs, lines 384-389): while the
remaining length holds a whole node, push the node at the cursor and
advance by the node size. -/
def growLoop {T : Type} (L : Layout) (s : PoolState T) (p len : Nat) : PoolState T :=
  if h : L.size ≤ len then
    growLoop L (push s p) (p + L.size) (len - L.size)
  else s
termination_by len
decreasing_by exact Nat.sub_lt (Nat.lt_of_lt_of_le L.size_pos h) L.size_pos

/-- Pool::grow (lib.rs, lines 361-390): align the start of the region
up to the node alignment (returning silently when the offset exhausts
the buffer), then carve the remainder into nodes.  Here p % L.align is
the rem of the source and L.align - p % L.align its offset. -/
def grow {T : Type} (L : Layout) (s : PoolState T) (p len : Nat) : PoolState T :=
  if p % L.align ≠ 0 then
    if L.align - p % L.align ≥ len then s
    else growLoop L s (p + (L.align - p % L.align)) (len - (L.align - p % L.align))
  else growLoop L s p len

/-- The number of usable bytes of a region passed to grow, after the
alignment offset is discarded (mirrors the arithmetic of grow). -/
def usableLen (L : Layout) (p len : Nat) : Nat :=
  if p % L.align ≠ 0 then
    if L.align - p % L.align ≥ len then 0
    else len - (L.align - p % L.align)
  else len

/-- How many whole nodes grow carves out of a region. -/
def growCount (L : Layout) (p len : Nat) : Nat :=
  usableLen L p len / L.size

/-- k consecutive calls to alloc, keeping only the resulting state;
none as soon as one of them fails. -/
def allocN {T : Type} : Nat → PoolState T → Option (PoolState T)
  | 0, s => some s
  | k + 1, s =>
    match alloc s with
    | some (_, s1) => allocN k s1
    | none => none

/-- The address of the first node of an abstract free list (0 when the
list is empty, i.e. the null pointer). -/
def headAddr : List Nat → Nat
  | [] => 0
  | a :: _ => a

/-- The abstract contents of the Treiber stack: the addresses l are a
chain through memory, each node's next link pointing at the following
address and the last one at null.  No address in the chain is null. -/
inductive IsChain {T : Type} (mem : Nat → Node T) : List Nat → Prop
  | nil : IsChain mem []
  | cons {a : Nat} {l : List Nat} :
      a ≠ 0 → (mem a).next = headAddr l → IsChain mem l → IsChain mem (a :: l)

/-- The pool's free list is exactly the chain l. -/
def FreeList {T : Type} (s : PoolState T) (l : List Nat) : Prop :=
  s.head = headAddr l ∧ IsChain s.mem l

theorem writeNext_same {T : Type} (mem : Nat → Node T) (a n : Nat) :
    writeNext mem a n a = { mem a with next := n } := by
  simp [writeNext]

theorem writeNext_other {T : Type} (mem : Nat → Node T) (a n x : Nat) (h : x ≠ a) :
    writeNext mem a n x = mem x := by
  simp [writeNext, h]

theorem isChain_congr {T : Type} {mem mem1 : Nat → Node T} {l : List Nat}
    (hc : IsChain mem l) (h : ∀ a ∈ l, (mem1 a).next = (mem a).next) :
    IsChain mem1 l := by
  induction hc with
  | nil => exact IsChain.nil
  | cons ha hnext _ ih =>
    exact IsChain.cons ha ((h _ (List.mem_cons_self _ _)).trans hnext)
      (ih fun a hal => h a (List.mem_cons_of_mem _ hal))

theorem pop_freeList_nil {T : Type} {s : PoolState T} (h : FreeList s []) :
    pop s = none := by
  simp [pop, h.1, headAddr]

theorem pop_freeList_cons {T : Type} {s : PoolState T} {a : Nat} {l : List Nat}
    (h : FreeList s (a :: l)) :
    pop s = some (a, { s with head := headAddr l }) ∧
      FreeList { s with head := headAddr l } l := by
  obtain ⟨hh, hc⟩ := h
  cases hc with
  | cons ha hnext hrest =>
    have hh' : s.head = a := hh
    constructor
    · simp [pop, hh', ha, hnext]
    · exact ⟨rfl, hrest⟩

theorem push_freeList {T : Type} {s : PoolState T} {l : List Nat} {n : Nat}
    (h : FreeList s l) (hn : n ≠ 0) (hnl : n ∉ l) :
    FreeList (push s n) (n :: l) := by
  obtain ⟨hh, hc⟩ := h
  refine ⟨rfl, IsChain.cons hn ?_ ?_⟩
  · rw [show (push s n).mem = writeNext s.mem n s.head from rfl,
      writeNext_same]
    exact hh
  · exact isChain_congr hc fun a hal => by
      rw [show (push s n).mem = writeNext s.mem n s.head from rfl,
        writeNext_other s.mem n s.head a (fun he => hnl (he ▸ hal))]

theorem alloc_some_iff {T : Type} {s s1 : PoolState T} {b : Box T} :
    alloc s = some (b, s1) ↔
      s.head ≠ 0 ∧ b = { node := s.head, state := HandleState.Uninit } ∧
        s1 = { s with head := (s.mem s.head).next } := by
  unfold alloc pop
  by_cases h : s.head = 0 <;> simp [h, eq_comm]

theorem alloc_freeList_nil {T : Type} {s : PoolState T} (h : FreeList s []) :
    alloc s = none := by
  unfold alloc
  rw [pop_freeList_nil h]

theorem allocN_freeList {T : Type} :
    ∀ {l : List Nat} {s : PoolState T}, FreeList s l →
      ∃ s1, allocN l.length s = some s1 ∧ FreeList s1 [] := by
  intro l
  induction l with
  | nil => exact fun h => ⟨_, rfl, h⟩
  | cons a l ih =>
    intro s h
    obtain ⟨hpop, hrest⟩ := pop_freeList_cons h
    obtain ⟨s1, hs1, hnil⟩ := ih hrest
    refine ⟨s1, ?_, hnil⟩
    show allocN (l.length + 1) s = some s1
    unfold allocN alloc
    rw [hpop]
    exact hs1

/-- grow with a remaining length below one node size adds nothing. -/
theorem growLoop_of_lt {T : Type} (L : Layout) (s : PoolState T) (p len : Nat)
    (h : len < L.size) : growLoop L s p len = s := by
  unfold growLoop
  rw [dif_neg (Nat.not_le.mpr h)]

/-- C6: alloc on an empty pool returns None.  A freshly constructed
pool (Pool::new) has a null head and has never been grown, so alloc
observes the stack empty and returns None; the same holds for any pool
state whose free list is observed empty.  Exhaustion is an Option
value, not a fault: alloc is a total function into Option. -/
theorem C6_alloc_empty_none {T : Type} (mem0 : Nat → Node T) (s : PoolState T)
    (h : s.head = 0) :
    alloc (PoolState.new T mem0) = none ∧ alloc s = none := by
  constructor
  · rfl
  · unfold alloc pop
    rw [if_pos h]

theorem C6_witness :
    (PoolState.new Nat fun _ => { data := none, next := 0 }).head = 0 ∧
      (alloc (PoolState.new Nat fun _ => { data := none, next := 0 }) = none ∧
        alloc (PoolState.new Nat fun _ => { data := none, next := 0 }) = none) :=
  ⟨rfl, C6_alloc_empty_none _ _ rfl⟩

/-- C8: a grow call whose buffer cannot fit one aligned node is a
silent no-op: when the usable remainder after the alignment offset is
smaller than one node size, the pool state is returned unchanged.  The
source signals no error (grow returns unit); in the model this shows
as the state being exactly the input state. -/
theorem C8_undersized_grow_noop {T : Type} (L : Layout) (s : PoolState T)
    (p len : Nat) (h : usableLen L p len < L.size) :
    grow L s p len = s := by
  unfold grow
  unfold usableLen at h
  by_cases hrem : p % L.align ≠ 0
  · rw [if_pos hrem]
    rw [if_pos hrem] at h
    by_cases hoff : L.align - p % L.align ≥ len
    · rw [if_pos hoff]
    · rw [if_neg hoff]
      rw [if_neg hoff] at h
      exact growLoop_of_lt L s _ _ h
  · rw [if_neg hrem]
    rw [if_neg hrem] at h
    exact growLoop_of_lt L s _ _ h

theorem C8_witness :
    usableLen { size := 8, align := 4, size_pos := by norm_num, align_pos := by norm_num } 1 5 <
        (8 : Nat) ∧
      grow { size := 8, align := 4, size_pos := by norm_num, align_pos := by norm_num }
          (PoolState.new Nat fun _ => { data := none, next := 0 }) 1 5 =
        PoolState.new Nat fun _ => { data := none, next := 0 } :=
  ⟨by decide, C8_undersized_grow_noop _ _ 1 5 (by decide)⟩

/-- C3: Pool::free runs T's destructor on the contained value exactly
once iff the handle's tag is Init (never for Uninit; the count is the
number of drop_in_place invocations), and in either case the node is
pushed back onto the free stack and the next alloc can claim it
again. -/
theorem C3_free_destructor_reuse {T : Type} (s : PoolState T) (b : Box T)
    (hn : b.node ≠ 0) :
    ((free s b).2 = 1 ↔ b.state = HandleState.Init) ∧
      ((free s b).2 = 0 ↔ b.state = HandleState.Uninit) ∧
      (free s b).1 = push s b.node ∧
      ∃ s1, alloc (free s b).1 =
        some ({ node := b.node, state := HandleState.Uninit }, s1) := by
  have hpush : (free s b).1 = push s b.node := by
    cases hb : b.state <;> simp [free, hb]
  refine ⟨?_, ?_, hpush, ?_⟩
  · cases hb : b.state <;> simp [free, hb]
  · cases hb : b.state <;> simp [free, hb]
  · rw [hpush]
    exact ⟨_, alloc_some_iff.mpr ⟨hn, rfl, rfl⟩⟩

theorem C3_witness :
    ((1 : Nat) ≠ 0) ∧
      (((free (PoolState.new Nat fun _ => { data := none, next := 0 })
            { node := 1, state := HandleState.Init }).2 = 1 ↔
          ({ node := 1, state := HandleState.Init } : Box Nat).state = HandleState.Init) ∧
        ((free (PoolState.new Nat fun _ => { data := none, next := 0 })
            { node := 1, state := HandleState.Init }).2 = 0 ↔
          ({ node := 1, state := HandleState.Init } : Box Nat).state = HandleState.Uninit) ∧
        (free (PoolState.new Nat fun _ => { data := none, next := 0 })
            { node := 1, state := HandleState.Init }).1 =
          push (PoolState.new Nat fun _ => { data := none, next := 0 }) 1 ∧
        ∃ s1, alloc (free (PoolState.new Nat fun _ => { data := none, next := 0 })
            { node := 1, state := HandleState.Init }).1 =
          some ({ node := 1, state := HandleState.Uninit }, s1)) :=
  ⟨by decide, C3_free_destructor_reuse _ { node := 1, state := HandleState.Init } (by decide)⟩

/-- C7: init/deref round trip.  If alloc returns an Uninit handle,
then init consumes it, writes the value into the same node's value
slot, and returns an Init handle on the same node; dereferencing that
handle reads back exactly the written value. -/
theorem C7_init_deref_roundtrip {T : Type} (s s1 : PoolState T) (b : Box T)
    (v : T) (h : alloc s = some (b, s1)) :
    (Box.initBox s1 b v).2.node = b.node ∧
      (Box.initBox s1 b v).2.state = HandleState.Init ∧
      Box.deref (Box.initBox s1 b v).1 (Box.initBox s1 b v).2 = some v := by
  refine ⟨rfl, rfl, ?_⟩
  simp [Box.initBox, Box.deref, writeData]

theorem C7_witness :
    alloc { head := 1, mem := fun _ => { data := none, next := 0 } } =
        some (({ node := 1, state := HandleState.Uninit } : Box Nat),
          { head := 0, mem := fun _ => { data := none, next := 0 } }) ∧
      ((Box.initBox { head := 0, mem := fun _ => { data := none, next := 0 } }
            ({ node := 1, state := HandleState.Uninit } : Box Nat) 42).2.node = 1 ∧
        (Box.initBox { head := 0, mem := fun _ => { data := none, next := 0 } }
            ({ node := 1, state := HandleState.Uninit } : Box Nat) 42).2.state =
          HandleState.Init ∧
        Box.deref
            (Box.initBox { head := 0, mem := fun _ => { data := none, next := 0 } }
              ({ node := 1, state := HandleState.Uninit } : Box Nat) 42).1
            (Box.initBox { head := 0, mem := fun _ => { data := none, next := 0 } }
              ({ node := 1, state := HandleState.Uninit } : Box Nat) 42).2 =
          some 42) :=
  ⟨rfl, C7_init_deref_roundtrip { head := 1, mem := fun _ => { data := none, next := 0 } }
    { head := 0, mem := fun _ => { data := none, next := 0 } }
    { node := 1, state := HandleState.Uninit } 42 rfl⟩

/-- C10: dropping a singleton-pool handle in the Uninit state runs no
destructor (the TypeId branch in singleton Drop is not taken) and
pushes its node back onto the free list, so a subsequent alloc can
claim the node again. -/
theorem C10_singleton_uninit_drop {T : Type} (s : PoolState T) (b : Box T)
    (hs : b.state = HandleState.Uninit) (hn : b.node ≠ 0) :
    (singletonDrop s b).2 = 0 ∧
      (singletonDrop s b).1 = push s b.node ∧
      ∃ s1, alloc (singletonDrop s b).1 =
        some ({ node := b.node, state := HandleState.Uninit }, s1) := by
  have hpush : (singletonDrop s b).1 = push s b.node := by
    simp [singletonDrop, hs]
  refine ⟨by simp [singletonDrop, hs], hpush, ?_⟩
  rw [hpush]
  exact ⟨_, alloc_some_iff.mpr ⟨hn, rfl, rfl⟩⟩

theorem C10_witness :
    ({ node := 2, state := HandleState.Uninit } : Box Nat).state = HandleState.Uninit ∧
      ({ node := 2, state := HandleState.Uninit } : Box Nat).node ≠ 0 ∧
      ((singletonDrop (PoolState.new Nat fun _ => { data := none, next := 0 })
            { node := 2, state := HandleState.Uninit }).2 = 0 ∧
        (singletonDrop (PoolState.new Nat fun _ => { data := none, next := 0 })
            { node := 2, state := HandleState.Uninit }).1 =
          push (PoolState.new Nat fun _ => { data := none, next := 0 }) 2 ∧
        ∃ s1, alloc (singletonDrop (PoolState.new Nat fun _ => { data := none, next := 0 })
            { node := 2, state := HandleState.Uninit }).1 =
          some ({ node := 2, state := HandleState.Uninit }, s1)) :=
  ⟨rfl, by decide, C10_singleton_uninit_drop _ _ rfl (by decide)⟩

/-- A concrete pool state for the C4 counterexample: the free list is
empty and the node at address 1 is claimed by an Init handle. -/
def stateC4 : PoolState Nat :=
  { head := 0, mem := fun _ => { data := some 7, next := 0 } }

/-- The Init handle of the C4 counterexample. -/
def boxC4 : Box Nat := { node := 1, state := HandleState.Init }

/-- C4 counterexample: in the generic (non-singleton) pool, the lib.rs
Box has no Drop implementation, so dropping an Init handle without
calling Pool::free runs no destructor (count 0, not 1) and does not
return the node to the free list: a subsequent alloc still finds the
pool empty.  This is exactly the behaviour the destructors test pins
down (tests.rs lines 62-66: dropping x leaks the block and the
destructor count stays unchanged). -/
theorem C4_counterexample :
    (Box.discard stateC4 boxC4).2 = 0 ∧
      alloc (Box.discard stateC4 boxC4).1 = none := by
  exact ⟨rfl, rfl⟩

/-- C4 amended: guaranteed release on drop holds for the singleton
pool's Box, not the generic one.  Dropping an Init singleton handle
runs the destructor exactly once and pushes the node back so it can be
allocated again; dropping the generic lib.rs Box is a leak: no
destructor runs and the pool state is unchanged. -/
theorem C4_amended_drop_release {T : Type} (s : PoolState T) (b : Box T)
    (hb : b.state = HandleState.Init) (hn : b.node ≠ 0) :
    Box.discard s b = (s, 0) ∧
      (singletonDrop s b).2 = 1 ∧
      ∃ s1, alloc (singletonDrop s b).1 =
        some ({ node := b.node, state := HandleState.Uninit }, s1) := by
  have hpush : (singletonDrop s b).1 = push s b.node := by
    simp [singletonDrop, hb]
  refine ⟨rfl, by simp [singletonDrop, hb], ?_⟩
  rw [hpush]
  exact ⟨_, alloc_some_iff.mpr ⟨hn, rfl, rfl⟩⟩

theorem C4_witness :
    ({ node := 3, state := HandleState.Init } : Box Nat).state = HandleState.Init ∧
      ({ node := 3, state := HandleState.Init } : Box Nat).node ≠ 0 ∧
      (Box.discard (PoolState.new Nat fun _ => { data := none, next := 0 })
            { node := 3, state := HandleState.Init } =
          (PoolState.new Nat fun _ => { data := none, next := 0 }, 0) ∧
        (singletonDrop (PoolState.new Nat fun _ => { data := none, next := 0 })
            { node := 3, state := HandleState.Init }).2 = 1 ∧
        ∃ s1, alloc (singletonDrop (PoolState.new Nat fun _ => { data := none, next := 0 })
            { node := 3, state := HandleState.Init }).1 =
          some ({ node := 3, state := HandleState.Uninit }, s1)) :=
  ⟨rfl, by decide, C4_amended_drop_release _ _ rfl (by decide)⟩

/-- C1: LIFO reuse order.  After allocating handles for nodes A then
B, freeing B first and A second (through handles on those same nodes,
in any type state), the next two allocs return A's former node first
and B's former node second: the last node freed is the first reused.
The statement tracks node identity (addresses), not stored values. -/
theorem C1_lifo_reuse_order {T : Type} (s s1 s2 : PoolState T)
    (bA bB fA fB : Box T)
    (h1 : alloc s = some (bA, s1)) (h2 : alloc s1 = some (bB, s2))
    (hA : fA.node = bA.node) (hB : fB.node = bB.node) :
    ∃ x s5 y s6,
      alloc ((free ((free s2 fB).1) fA).1) = some (x, s5) ∧
        alloc s5 = some (y, s6) ∧ x.node = bA.node ∧ y.node = bB.node := by
  obtain ⟨hs0, hbA, -⟩ := alloc_some_iff.mp h1
  obtain ⟨hs1, hbB, -⟩ := alloc_some_iff.mp h2
  have hfB : (free (free s2 fB).1 fA).1 = push (push s2 fB.node) fA.node := by
    cases hfb : fB.state <;> cases hfa : fA.state <;> simp [free, hfb, hfa]
  have hAn : bA.node ≠ 0 := by rw [hbA]; exact hs0
  have hBn : bB.node ≠ 0 := by rw [hbB]; exact hs1
  rw [hfB, hA, hB]
  have e1 : alloc (push (push s2 bB.node) bA.node) =
      some ({ node := bA.node, state := HandleState.Uninit },
        { push (push s2 bB.node) bA.node with
          head := ((push (push s2 bB.node) bA.node).mem bA.node).next }) :=
    alloc_some_iff.mpr ⟨hAn, rfl, rfl⟩
  have hnext : ((push (push s2 bB.node) bA.node).mem bA.node).next = bB.node := by
    show (writeNext (push s2 bB.node).mem bA.node (push s2 bB.node).head bA.node).next =
      bB.node
    rw [writeNext_same]
    rfl
  rw [hnext] at e1
  have e2 : alloc { push (push s2 bB.node) bA.node with head := bB.node } =
      some ({ node := bB.node, state := HandleState.Uninit },
        { push (push s2 bB.node) bA.node with
          head := ((push (push s2 bB.node) bA.node).mem bB.node).next }) :=
    alloc_some_iff.mpr ⟨hBn, rfl, rfl⟩
  exact ⟨_, _, _, _, e1, e2, rfl, rfl⟩

/-- The memory of the concrete two-node pool used to exercise the LIFO
reuse claim: node 1 links to node 2, node 2 is the last free node. -/
def memC1 : Nat → Node Nat :=
  fun x => { data := none, next := if x = 1 then 2 else 0 }

theorem C1_witness :
    alloc ({ head := 1, mem := memC1 } : PoolState Nat) =
        some ({ node := 1, state := HandleState.Uninit }, { head := 2, mem := memC1 }) ∧
      alloc ({ head := 2, mem := memC1 } : PoolState Nat) =
        some ({ node := 2, state := HandleState.Uninit }, { head := 0, mem := memC1 }) ∧
      ∃ x s5 y s6,
        alloc ((free ((free ({ head := 0, mem := memC1 } : PoolState Nat)
                ({ node := 2, state := HandleState.Init } : Box Nat)).1)
              ({ node := 1, state := HandleState.Init } : Box Nat)).1) = some (x, s5) ∧
          alloc s5 = some (y, s6) ∧ x.node = 1 ∧ y.node = 2 := by
  refine ⟨rfl, rfl, ?_⟩
  exact C1_lifo_reuse_order { head := 1, mem := memC1 } { head := 2, mem := memC1 }
    { head := 0, mem := memC1 }
    { node := 1, state := HandleState.Uninit }
    { node := 2, state := HandleState.Uninit }
    { node := 1, state := HandleState.Init }
    { node := 2, state := HandleState.Init }
    rfl rfl rfl rfl

/-- The grow loop starting at a positive cursor p, on a pool whose
free-list addresses all lie below p, yields a free list with one entry
per whole node size that fits in len. -/
theorem growLoop_freeList {T : Type} (L : Layout) :
    ∀ (len p : Nat) (s : PoolState T) (l : List Nat), FreeList s l → 0 < p →
      (∀ a ∈ l, a < p) →
      ∃ l1, FreeList (growLoop L s p len) l1 ∧
        l1.length = len / L.size + l.length := by
  intro len
  induction len using Nat.strong_induction_on with
  | _ len ih =>
    intro p s l hfl hp hlt
    by_cases h : L.size ≤ len
    · rw [growLoop, dif_pos h]
      have hfresh : p ∉ l := fun hmem => absurd (hlt p hmem) (lt_irrefl p)
      have hfl1 : FreeList (push s p) (p :: l) :=
        push_freeList hfl (Nat.pos_iff_ne_zero.mp hp) hfresh
      obtain ⟨l1, h1, hlen⟩ :=
        ih (len - L.size) (Nat.sub_lt (Nat.lt_of_lt_of_le L.size_pos h) L.size_pos)
          (p + L.size) (push s p) (p :: l) hfl1
          (Nat.lt_of_lt_of_le hp (Nat.le_add_right _ _))
          (by
            intro a ha
            rcases List.mem_cons.mp ha with ha | ha
            · rw [ha]; exact Nat.lt_add_of_pos_right L.size_pos
            · exact Nat.lt_of_lt_of_le (hlt a ha) (Nat.le_add_right _ _))
      refine ⟨l1, h1, ?_⟩
      rw [hlen, Nat.div_eq_sub_div L.size_pos h, List.length_cons]
      omega
    · rw [growLoop_of_lt L s p len (Nat.not_le.mp h)]
      exact ⟨l, hfl, by rw [Nat.div_eq_of_lt (Nat.not_le.mp h)]; omega⟩

/-- Pool::grow on a pool whose free-list addresses lie below the
region start adds exactly growCount nodes to the free list. -/
theorem grow_freeList {T : Type} (L : Layout) (p len : Nat) (s : PoolState T)
    (l : List Nat) (hfl : FreeList s l) (hp : 0 < p) (hlt : ∀ a ∈ l, a < p) :
    ∃ l1, FreeList (grow L s p len) l1 ∧
      l1.length = growCount L p len + l.length := by
  unfold grow growCount usableLen
  by_cases hrem : p % L.align ≠ 0
  · rw [if_pos hrem, if_pos hrem]
    by_cases hoff : L.align - p % L.align ≥ len
    · rw [if_pos hoff, if_pos hoff, Nat.zero_div]
      exact ⟨l, hfl, by omega⟩
    · rw [if_neg hoff, if_neg hoff]
      exact growLoop_freeList L _ _ s l hfl
        (Nat.lt_of_lt_of_le hp (Nat.le_add_right _ _))
        fun a ha => Nat.lt_of_lt_of_le (hlt a ha) (Nat.le_add_right _ _)
  · rw [if_neg hrem, if_neg hrem]
    exact growLoop_freeList L len p s l hfl hp hlt

/-- Growing a fresh pool with a region of growCount whole nodes lets
exactly that many allocs succeed, after which alloc observes the empty
stack. -/
theorem grow_exhaust {T : Type} (L : Layout) (mem0 : Nat → Node T) (p len : Nat)
    (hp : 0 < p) :
    ∃ s1, allocN (growCount L p len) (grow L (PoolState.new T mem0) p len) =
        some s1 ∧ alloc s1 = none := by
  have hfl : FreeList (PoolState.new T mem0) ([] : List Nat) := ⟨rfl, IsChain.nil⟩
  obtain ⟨l1, h1, hlen⟩ :=
    grow_freeList L p len (PoolState.new T mem0) [] hfl hp (by simp)
  obtain ⟨s1, hs1, hnil⟩ := allocN_freeList h1
  rw [hlen, List.length_nil, Nat.add_zero] at hs1
  exact ⟨s1, hs1, alloc_freeList_nil hnil⟩

/-- C2: exact capacity after growth.  Growing a fresh pool with a
buffer at a nonzero address p that holds exactly k aligned nodes
(k = growCount L p len, the byte count left after the alignment offset
divided by the node size) makes exactly k consecutive allocs succeed,
and the alloc after those k observes the pool exhausted and returns
None. -/
theorem C2_exact_capacity {T : Type} (L : Layout) (mem0 : Nat → Node T)
    (p len : Nat) (hp : 0 < p) :
    ∃ s1, allocN (growCount L p len) (grow L (PoolState.new T mem0) p len) =
        some s1 ∧ alloc s1 = none :=
  grow_exhaust L mem0 p len hp

theorem C2_witness :
    0 < 4 ∧
      ∃ s1,
        allocN
            (growCount
              { size := 8, align := 4, size_pos := by norm_num, align_pos := by norm_num }
              4 31)
            (grow { size := 8, align := 4, size_pos := by norm_num, align_pos := by norm_num }
              (PoolState.new Nat fun _ => { data := none, next := 0 }) 4 31) =
          some s1 ∧ alloc s1 = none :=
  ⟨by norm_num,
    C2_exact_capacity
      { size := 8, align := 4, size_pos := by norm_num, align_pos := by norm_num }
      (fun _ => { data := none, next := 0 }) 4 31 (by norm_num)⟩

/-- Round n up to the next multiple of a (a positive). -/
def roundUp (n a : Nat) : Nat := ((n + a - 1) / a) * a

/-- Size of the two-field Node layout (lib.rs, lines 499-503: struct
with a data field of size tSize and alignment tAlign, followed by a
next pointer of ptrSize bytes aligned to ptrSize): the pointer field
starts at tSize rounded up to the pointer alignment, and the struct
size is rounded up to the struct alignment. -/
def structNodeSize (tSize tAlign ptrSize : Nat) : Nat :=
  roundUp (roundUp tSize ptrSize + ptrSize) (max tAlign ptrSize)

/-- Alignment of Node, both layouts: the max of field alignments. -/
def nodeAlign (tAlign ptrSize : Nat) : Nat := max tAlign ptrSize

/-- Size of the overlapping (union) Node layout (lib.rs, lines
512-516): the max of the field sizes, rounded up to the alignment. -/
def unionNodeSize (tSize tAlign ptrSize : Nat) : Nat :=
  roundUp (max tSize ptrSize) (max tAlign ptrSize)

/-- The Node layout for 1-byte elements on a 4-byte-pointer target,
two-field representation: 8 bytes, 4-aligned. -/
def structLayoutC9 : Layout :=
  { size := structNodeSize 1 1 4, align := nodeAlign 1 4,
    size_pos := by decide, align_pos := by decide }

/-- The Node layout for 1-byte elements on a 4-byte-pointer target,
union representation: 4 bytes, 4-aligned. -/
def unionLayoutC9 : Layout :=
  { size := unionNodeSize 1 1 4, align := nodeAlign 1 4,
    size_pos := by decide, align_pos := by decide }

/-- C9: concrete sizing arithmetic.  For a pool of 1-byte elements on
a 4-byte-pointer target, the two-field Node is 8 bytes (4-aligned) and
the union Node is 4 bytes; growing a fresh pool with a 31-byte region
at any nonzero address yields exactly 3 usable nodes in the two-field
layout and exactly 7 in the union layout (the up-to-3 alignment
padding bytes never change these quotients), and alloc succeeds
exactly that many times before returning None. -/
theorem C9_concrete_sizing (mem0 mem1 : Nat → Node (Fin 256)) (p q : Nat)
    (hp : 0 < p) (hq : 0 < q) :
    structLayoutC9.size = 8 ∧ structLayoutC9.align = 4 ∧
      unionLayoutC9.size = 4 ∧ unionLayoutC9.align = 4 ∧
      growCount structLayoutC9 p 31 = 3 ∧ growCount unionLayoutC9 q 31 = 7 ∧
      (∃ s1, allocN 3 (grow structLayoutC9 (PoolState.new (Fin 256) mem0) p 31) =
          some s1 ∧ alloc s1 = none) ∧
      (∃ s1, allocN 7 (grow unionLayoutC9 (PoolState.new (Fin 256) mem1) q 31) =
          some s1 ∧ alloc s1 = none) := by
  have hps : structLayoutC9.size = 8 := by decide
  have hpa : structLayoutC9.align = 4 := by decide
  have hus : unionLayoutC9.size = 4 := by decide
  have hua : unionLayoutC9.align = 4 := by decide
  have hmod : ∀ r : Nat, r % 4 = 0 ∨ r % 4 = 1 ∨ r % 4 = 2 ∨ r % 4 = 3 := by omega
  have hcs : growCount structLayoutC9 p 31 = 3 := by
    unfold growCount usableLen
    rw [hps, hpa]
    rcases hmod p with h | h | h | h <;> rw [h] <;> norm_num
  have hcu : growCount unionLayoutC9 q 31 = 7 := by
    unfold growCount usableLen
    rw [hus, hua]
    rcases hmod q with h | h | h | h <;> rw [h] <;> norm_num
  refine ⟨hps, hpa, hus, hua, hcs, hcu, ?_, ?_⟩
  · have := grow_exhaust structLayoutC9 mem0 p 31 hp
    rwa [hcs] at this
  · have := grow_exhaust unionLayoutC9 mem1 q 31 hq
    rwa [hcu] at this

theorem C9_witness :
    0 < 4 ∧ 0 < 8 ∧
      (structLayoutC9.size = 8 ∧ structLayoutC9.align = 4 ∧
        unionLayoutC9.size = 4 ∧ unionLayoutC9.align = 4 ∧
        growCount structLayoutC9 4 31 = 3 ∧ growCount unionLayoutC9 8 31 = 7 ∧
        (∃ s1, allocN 3 (grow structLayoutC9
            (PoolState.new (Fin 256) fun _ => { data := none, next := 0 }) 4 31) =
            some s1 ∧ alloc s1 = none) ∧
        (∃ s1, allocN 7 (grow unionLayoutC9
            (PoolState.new (Fin 256) fun _ => { data := none, next := 0 }) 8 31) =
            some s1 ∧ alloc s1 = none)) :=
  ⟨by norm_num, by norm_num,
    C9_concrete_sizing (fun _ => { data := none, next := 0 })
      (fun _ => { data := none, next := 0 }) 4 8 (by norm_num) (by norm_num)⟩

/-!
## The concurrency model

Concurrency in the source arises from single-core preemption: a
higher-priority handler may interrupt an alloc/free/grow call at any
instruction of its retry loop, run complete operations of its own, and
return (handlers run to completion before the preempted code resumes,
so preemption contributes a sequence of completed operations).  The
retry loops are modelled after the arch backend (lib.rs, pop at lines
429-455, push at lines 478-496): LDREX observes the head and sets the
exclusivity monitor, STREX succeeds only if the monitor is still set,
and taking any exception clears the monitor (lib.rs soundness section;
this is the Cortex-M property that defeats the ABA hazard, and the
generic AtomicPtr backend compiles to the same LDREX/STREX loop on the
only targets for which Pool is Sync).
-/

/-- A configuration of the concurrency model: the pool, the set of
node addresses held by live handles, and the set of node addresses in
flight (claimed by an in-progress push: a node being freed, or a fresh
node being added by grow, which no other context can touch). -/
structure Config (T : Type) where
  pool : PoolState T
  held : Finset Nat
  pend : Finset Nat

/-- The linearized effect of one completed pool operation, used for
the operations a preempting handler runs to completion: a successful
alloc pops the head node and hands it to a live handle; an alloc that
observes the stack empty changes nothing; free pushes a node owned by
a live handle; grow pushes a fresh node (nonzero, not held, not in
flight, not on known free list). -/
inductive AStep {T : Type} : Config T → Config T → Prop
  | allocSome {c : Config T} {n : Nat} {s1 : PoolState T} :
      pop c.pool = some (n, s1) →
      AStep c { pool := s1, held := insert n c.held, pend := c.pend }
  | allocNone {c : Config T} :
      pop c.pool = none → AStep c c
  | freeNode {c : Config T} {n : Nat} :
      n ∈ c.held →
      AStep c { pool := push c.pool n, held := c.held.erase n, pend := c.pend }
  | growNode {c : Config T} {n : Nat} :
      n ≠ 0 → n ∉ c.held → n ∉ c.pend →
      (∀ l, FreeList c.pool l → n ∉ l) →
      AStep c { pool := push c.pool n, held := c.held, pend := c.pend }

/-- The integrity invariant of the claim: the free list is a valid
singly-linked acyclic chain (a duplicate-free address list ending at
null), and no node is simultaneously on the free list and held by a
live handle or in flight; held and in-flight nodes are disjoint and
nonzero. -/
def Inv {T : Type} (c : Config T) : Prop :=
  ∃ l, FreeList c.pool l ∧ l.Nodup ∧
    (∀ a ∈ l, a ∉ c.held ∧ a ∉ c.pend) ∧
    (∀ a ∈ c.held, a ∉ c.pend) ∧
    (0 : Nat) ∉ c.held ∧ (0 : Nat) ∉ c.pend

theorem isChain_ne_zero {T : Type} {mem : Nat → Node T} {l : List Nat}
    (hc : IsChain mem l) : ∀ a ∈ l, a ≠ 0 := by
  induction hc with
  | nil => intro a ha; cases ha
  | cons h0 _ _ ih =>
    intro a ha
    rcases List.mem_cons.mp ha with rfl | ha
    · exact h0
    · exact ih a ha

theorem astep_inv {T : Type} {c c1 : Config T} (hst : AStep c c1) (hinv : Inv c) :
    Inv c1 := by
  obtain ⟨l, hfl, hnd, hdisj, hhp, hh0, hp0⟩ := hinv
  cases hst with
  | allocSome hpop =>
    cases l with
    | nil => rw [pop_freeList_nil hfl] at hpop; cases hpop
    | cons a l' =>
      obtain ⟨hpop', hfl'⟩ := pop_freeList_cons hfl
      rw [hpop'] at hpop
      obtain ⟨rfl, rfl⟩ : a = _ ∧ _ := by
        have := Option.some.inj hpop
        exact ⟨congrArg Prod.fst this, congrArg Prod.snd this⟩
      have ha0 : a ≠ 0 := isChain_ne_zero hfl.2 a (List.mem_cons_self _ _)
      refine ⟨l', hfl', (List.nodup_cons.mp hnd).2, ?_, ?_, ?_, hp0⟩
      · intro x hx
        have hxal : x ∈ a :: l' := List.mem_cons_of_mem _ hx
        refine ⟨?_, (hdisj x hxal).2⟩
        intro hxm
        rcases Finset.mem_insert.mp hxm with rfl | hxm
        · exact (List.nodup_cons.mp hnd).1 hx
        · exact (hdisj x hxal).1 hxm
      · intro x hx
        rcases Finset.mem_insert.mp hx with rfl | hx
        · exact (hdisj x (List.mem_cons_self _ _)).2
        · exact hhp x hx
      · intro hx
        rcases Finset.mem_insert.mp hx with h | h
        · exact ha0 h.symm
        · exact hh0 h
  | allocNone hpop => exact ⟨l, hfl, hnd, hdisj, hhp, hh0, hp0⟩
  | freeNode hn =>
    rename_i n
    have hn0 : n ≠ 0 := fun h => hh0 (h ▸ hn)
    have hnl : n ∉ l := fun h => (hdisj n h).1 hn
    refine ⟨n :: l, push_freeList hfl hn0 hnl, List.nodup_cons.mpr ⟨hnl, hnd⟩,
      ?_, ?_, ?_, hp0⟩
    · intro x hx
      rcases List.mem_cons.mp hx with rfl | hx
      · exact ⟨Finset.not_mem_erase _ _, hhp x hn⟩
      · exact ⟨fun h => (hdisj x hx).1 (Finset.mem_of_mem_erase h), (hdisj x hx).2⟩
    · intro x hx
      exact hhp x (Finset.mem_of_mem_erase hx)
    · intro hx
      exact hh0 (Finset.mem_of_mem_erase hx)
  | growNode hn0 hnh hnp hfresh =>
    rename_i n
    have hnl : n ∉ l := hfresh l hfl
    refine ⟨n :: l, push_freeList hfl hn0 hnl, List.nodup_cons.mpr ⟨hnl, hnd⟩,
      ?_, hhp, hh0, hp0⟩
    intro x hx
    rcases List.mem_cons.mp hx with rfl | hx
    · exact ⟨hnh, hnp⟩
    · exact hdisj x hx

/-- The control point of the in-progress (preemptible) retry loop,
following the arch backend: a pop iteration is LDREX of the head, the
read of the head node's next link, then STREX; a push first claims the
node to push, and each iteration is LDREX of the head, the write of
the claimed node's next link, then STREX.  The mon flag is the LDREX
exclusivity reservation. -/
inductive Frame where
  | idle : Frame
  | popLoaded (h : Nat) (mon : Bool) : Frame
  | popNext (h nx : Nat) (mon : Bool) : Frame
  | pushReady (n : Nat) : Frame
  | pushLoaded (n h : Nat) (mon : Bool) : Frame
  | pushLinked (n h : Nat) (mon : Bool) : Frame

/-- Taking an exception clears the exclusivity monitor (Cortex-M:
STREX fails after any exception between it and its LDREX). -/
def clearMon : Frame → Frame
  | .popLoaded h _ => .popLoaded h false
  | .popNext h nx _ => .popNext h nx false
  | .pushLoaded n h _ => .pushLoaded n h false
  | .pushLinked n h _ => .pushLinked n h false
  | f => f

/-- One step of the interleaved execution: the instruction-level steps
of the in-progress pop or push retry loop, or a preemption that runs
one completed operation and clears the monitor.  STREX (strexOk)
succeeds only while the monitor is set; a failed STREX retries the
loop; observing an empty stack in pop executes CLREX and returns
None. -/
inductive MStep {T : Type} : Config T × Frame → Config T × Frame → Prop
  | popLdrex {c : Config T} :
      MStep (c, Frame.idle) (c, Frame.popLoaded c.pool.head true)
  | popEmpty {c : Config T} {m : Bool} :
      MStep (c, Frame.popLoaded 0 m) (c, Frame.idle)
  | popRead {c : Config T} {h : Nat} {m : Bool} :
      h ≠ 0 →
      MStep (c, Frame.popLoaded h m) (c, Frame.popNext h ((c.pool.mem h).next) m)
  | popStrexOk {c : Config T} {h nx : Nat} :
      MStep (c, Frame.popNext h nx true)
        ({ pool := { c.pool with head := nx }, held := insert h c.held,
           pend := c.pend }, Frame.idle)
  | popStrexFail {c : Config T} {h nx : Nat} :
      MStep (c, Frame.popNext h nx false) (c, Frame.idle)
  | pushStart {c : Config T} {n : Nat} :
      n ≠ 0 → n ∉ c.pend →
      (n ∈ c.held ∨ (n ∉ c.held ∧ ∀ l, FreeList c.pool l → n ∉ l)) →
      MStep (c, Frame.idle)
        ({ pool := c.pool, held := c.held.erase n, pend := insert n c.pend },
          Frame.pushReady n)
  | pushLdrex {c : Config T} {n : Nat} :
      MStep (c, Frame.pushReady n) (c, Frame.pushLoaded n c.pool.head true)
  | pushLink {c : Config T} {n h : Nat} {m : Bool} :
      MStep (c, Frame.pushLoaded n h m)
        ({ pool := { c.pool with mem := writeNext c.pool.mem n h },
           held := c.held, pend := c.pend }, Frame.pushLinked n h m)
  | pushStrexOk {c : Config T} {n h : Nat} :
      MStep (c, Frame.pushLinked n h true)
        ({ pool := { c.pool with head := n }, held := c.held,
           pend := c.pend.erase n }, Frame.idle)
  | pushStrexFail {c : Config T} {n h : Nat} :
      MStep (c, Frame.pushLinked n h false) (c, Frame.pushReady n)
  | preempt {c c1 : Config T} {f : Frame} :
      AStep c c1 → MStep (c, f) (c1, clearMon f)

/-- What the monitor guarantees about the in-progress frame: while the
reservation is still set, the observed values agree with the current
state (no preemption has happened since the LDREX), and a claimed push
node stays in flight. -/
def FrameOk {T : Type} (c : Config T) : Frame → Prop
  | Frame.idle => True
  | Frame.popLoaded h m => m = true → h = c.pool.head
  | Frame.popNext h nx m =>
      m = true → h = c.pool.head ∧ h ≠ 0 ∧ nx = (c.pool.mem h).next
  | Frame.pushReady n => n ∈ c.pend
  | Frame.pushLoaded n h m => n ∈ c.pend ∧ (m = true → h = c.pool.head)
  | Frame.pushLinked n h m =>
      n ∈ c.pend ∧ (m = true → h = c.pool.head ∧ (c.pool.mem n).next = h)

/-- The machine invariant: pool integrity plus monitor accuracy. -/
def MInv {T : Type} (st : Config T × Frame) : Prop :=
  Inv st.1 ∧ FrameOk st.1 st.2

theorem astep_pend {T : Type} {c c1 : Config T} (hst : AStep c c1) :
    c1.pend = c.pend := by
  cases hst <;> rfl

theorem mstep_minv {T : Type} {st st1 : Config T × Frame} (hst : MStep st st1)
    (hinv : MInv st) : MInv st1 := by
  obtain ⟨hi, hf⟩ := hinv
  cases hst with
  | popLdrex => exact ⟨hi, fun _ => rfl⟩
  | popEmpty => exact ⟨hi, trivial⟩
  | popRead h0 =>
    refine ⟨hi, ?_⟩
    intro hm
    exact ⟨hf hm, h0, rfl⟩
  | popStrexOk =>
    rename_i c h nx
    obtain ⟨hh, h0, hnx⟩ := hf rfl
    have hpop : pop c.pool = some (h, { c.pool with head := nx }) := by
      unfold pop
      rw [if_neg (hh ▸ h0), hnx, hh]
    exact ⟨astep_inv (AStep.allocSome hpop) hi, trivial⟩
  | popStrexFail => exact ⟨hi, trivial⟩
  | pushStart h0 hnp hsrc =>
    rename_i c n
    obtain ⟨l, hfl, hnd, hdisj, hhp, hh0, hp0⟩ := hi
    have hnl : n ∉ l := by
      rcases hsrc with hn | ⟨-, hfr⟩
      · exact fun hx => (hdisj n hx).1 hn
      · exact hfr l hfl
    refine ⟨⟨l, hfl, hnd, ?_, ?_, ?_, ?_⟩, Finset.mem_insert_self n _⟩
    · intro x hx
      refine ⟨fun h => (hdisj x hx).1 (Finset.mem_of_mem_erase h), ?_⟩
      intro h
      rcases Finset.mem_insert.mp h with rfl | h
      · exact hnl hx
      · exact (hdisj x hx).2 h
    · intro x hx
      intro h
      rcases Finset.mem_insert.mp h with rfl | h
      · exact (Finset.not_mem_erase x _) hx
      · exact hhp x (Finset.mem_of_mem_erase hx) h
    · intro h
      exact hh0 (Finset.mem_of_mem_erase h)
    · intro h
      rcases Finset.mem_insert.mp h with h | h
      · exact h0 h.symm
      · exact hp0 h
  | pushLdrex =>
    exact ⟨hi, hf, fun _ => rfl⟩
  | pushLink =>
    rename_i c n h m
    obtain ⟨hn, hmon⟩ := hf
    obtain ⟨l, hfl, hnd, hdisj, hhp, hh0, hp0⟩ := hi
    have hnl : n ∉ l := fun hx => (hdisj n hx).2 hn
    have hfl1 : FreeList { c.pool with mem := writeNext c.pool.mem n h } l := by
      refine ⟨hfl.1, isChain_congr hfl.2 ?_⟩
      intro a ha
      show (writeNext c.pool.mem n h a).next = (c.pool.mem a).next
      rw [writeNext_other c.pool.mem n h a (fun he => hnl (he ▸ ha))]
    refine ⟨⟨l, hfl1, hnd, hdisj, hhp, hh0, hp0⟩, hn, ?_⟩
    intro hm
    refine ⟨hmon hm, ?_⟩
    rw [show ({ c.pool with mem := writeNext c.pool.mem n h } :
      PoolState T).mem = writeNext c.pool.mem n h from rfl, writeNext_same]
  | pushStrexOk =>
    rename_i c n h
    obtain ⟨hn, hmon⟩ := hf
    obtain ⟨hh, hnext⟩ := hmon rfl
    obtain ⟨l, hfl, hnd, hdisj, hhp, hh0, hp0⟩ := hi
    have hn0 : n ≠ 0 := fun he => hp0 (he ▸ hn)
    have hnl : n ∉ l := fun hx => (hdisj n hx).2 hn
    have hfl1 : FreeList { c.pool with head := n } (n :: l) := by
      refine ⟨rfl, IsChain.cons hn0 ?_ hfl.2⟩
      rw [hnext, hh]
      exact hfl.1
    refine ⟨⟨n :: l, hfl1, List.nodup_cons.mpr ⟨hnl, hnd⟩, ?_, ?_, hh0, ?_⟩, trivial⟩
    · intro x hx
      rcases List.mem_cons.mp hx with rfl | hx
      · exact ⟨fun hxh => hhp x hxh hn, Finset.not_mem_erase _ _⟩
      · exact ⟨(hdisj x hx).1, fun hxp => (hdisj x hx).2 (Finset.mem_of_mem_erase hxp)⟩
    · intro x hx hxp
      exact hhp x hx (Finset.mem_of_mem_erase hxp)
    · intro h
      exact hp0 (Finset.mem_of_mem_erase h)
  | pushStrexFail =>
    exact ⟨hi, hf.1⟩
  | preempt hast =>
    rename_i c c1 f
    refine ⟨astep_inv hast hi, ?_⟩
    have hpend := astep_pend hast
    cases f with
    | idle => exact trivial
    | popLoaded h m =>
      exact fun hm => (Bool.false_ne_true hm).elim
    | popNext h nx m =>
      exact fun hm => (Bool.false_ne_true hm).elim
    | pushReady n =>
      show n ∈ c1.pend
      rw [hpend]
      exact hf
    | pushLoaded n h m =>
      refine ⟨?_, fun hm => (Bool.false_ne_true hm).elim⟩
      show n ∈ c1.pend
      rw [hpend]
      exact hf.1
    | pushLinked n h m =>
      refine ⟨?_, fun hm => (Bool.false_ne_true hm).elim⟩
      show n ∈ c1.pend
      rw [hpend]
      exact hf.1

/-- C5: integrity of the free list under arbitrary single-core
preemptive interleavings.  From any configuration satisfying the
machine invariant, any trace of loop-level steps of an in-progress
alloc/free/grow call, interleaved at every control point with
preemptions by completed alloc/free/grow operations, preserves the
invariant: the free list is a valid, duplicate-free (acyclic)
singly-linked chain ending at null, and no node is reachable from the
free list while also held by a live handle (or in flight through a
push).  The strexOk steps are guarded by the exclusivity monitor,
which every preemption clears, mirroring the LL/SC argument of the
source; without that guard the final CAS of a preempted pop could
publish a stale next pointer (the ABA corruption the lib.rs soundness
section describes). -/
theorem C5_interleaving_integrity {T : Type} (st0 st1 : Config T × Frame)
    (hsteps : Relation.ReflTransGen MStep st0 st1) (h0 : MInv st0) :
    MInv st1 ∧
      ∃ l, FreeList st1.1.pool l ∧ l.Nodup ∧ ∀ a ∈ l, a ∉ st1.1.held := by
  have hm : MInv st1 := by
    induction hsteps with
    | refl => exact h0
    | tail _ hstep ih => exact mstep_minv hstep ih
  obtain ⟨l, hfl, hnd, hdisj, -⟩ := hm.1
  exact ⟨hm, l, hfl, hnd, fun a ha => (hdisj a ha).1⟩

/-- A concrete initial configuration: empty free list, no handles, no
in-flight nodes. -/
def configC5 : Config Nat :=
  { pool := { head := 0, mem := fun _ => { data := none, next := 0 } },
    held := ∅, pend := ∅ }

theorem C5_witness :
    (MInv (configC5, Frame.popLoaded 0 true) ∧
      ∃ l, FreeList (configC5, Frame.popLoaded 0 true).1.pool l ∧ l.Nodup ∧
        ∀ a ∈ l, a ∉ (configC5, Frame.popLoaded 0 true).1.held) := by
  have h0 : MInv (configC5, Frame.idle) := by
    refine ⟨⟨[], ⟨rfl, IsChain.nil⟩, List.nodup_nil, ?_, ?_, ?_, ?_⟩, trivial⟩
    · intro a ha; cases ha
    · intro a ha; cases ha
    · exact Finset.not_mem_empty 0
    · exact Finset.not_mem_empty 0
  exact C5_interleaving_integrity (configC5, Frame.idle)
    (configC5, Frame.popLoaded 0 true)
    (Relation.ReflTransGen.single MStep.popLdrex) h0

end Lifo
